import Mathlib

/-!
Formal model of the SIP (Systematic Investment Plan) engine of
TimeInMarketSim.py: the roll-forward primitive `get_next_trading_day`
and the schedule-resolution / accumulation function `calculate_sip`.

The embedding is shallow: pandas timestamps become a Gregorian `Date`
structure, the `DatetimeIndex` becomes an ascending `List Date`, prices
and money amounts become exact rationals, and the exceptions raised by
the Python code become an `Except String` result.
-/

namespace TimeInMarketSim

/-- A proleptic Gregorian calendar date.  Models the (timezone-stripped)
`pd.Timestamp` values that populate the data frame's index. -/
structure Date where
  year : Nat
  month : Nat
  day : Nat
deriving DecidableEq, Repr

/-- Gregorian leap-year rule, as used by Python's `calendar` module and
by `pd.Timestamp` validation. -/
def isLeapYear (y : Nat) : Bool :=
  (y % 4 == 0 && y % 100 != 0) || y % 400 == 0

/-- Number of days of month `m` of year `y`; this is
`calendar.monthrange(year, month)[1]` from the source's except-branch. -/
def daysInMonth (y m : Nat) : Nat :=
  if m = 2 then (if isLeapYear y then 29 else 28)
  else if m = 4 ∨ m = 6 ∨ m = 9 ∨ m = 11 then 30
  else 31

/-- Days of year `y` that lie strictly before the first day of month `m`. -/
def daysBeforeMonth (y m : Nat) : Nat :=
  ∑ i ∈ Finset.range (m - 1), daysInMonth y (i + 1)

/-- Rata-die day number of a date: day 1 is 0001-01-01 (a Monday in the
proleptic Gregorian calendar).  Chronological comparison of two valid
`pd.Timestamp`s is exactly comparison of their rata-die numbers, so every
date comparison the source performs is modelled through `rataDie`. -/
def rataDie (d : Date) : Nat :=
  365 * (d.year - 1) + (d.year - 1) / 4 - (d.year - 1) / 100 + (d.year - 1) / 400
    + daysBeforeMonth d.year d.month + d.day

/-- Python's `datetime.weekday()`: 0 = Monday .. 6 = Sunday. -/
def weekday (d : Date) : Nat := (rataDie d - 1) % 7

/-- Model of `time.strptime(freq_val, %A).tm_wday`: the recognized full
weekday names map to 0 = Monday .. 6 = Sunday, anything else raises
`ValueError` (modelled as `none`). -/
def parseWeekday : String → Option Nat
  | "Monday" => some 0
  | "Tuesday" => some 1
  | "Wednesday" => some 2
  | "Thursday" => some 3
  | "Friday" => some 4
  | "Saturday" => some 5
  | "Sunday" => some 6
  | _ => none

/-- A date that actually exists in the calendar (and hence can be a
`pd.Timestamp`). -/
def Date.Valid (d : Date) : Prop :=
  1 ≤ d.year ∧ 1 ≤ d.month ∧ d.month ≤ 12 ∧ 1 ≤ d.day ∧
    d.day ≤ daysInMonth d.year d.month

instance (d : Date) : Decidable d.Valid := by
  unfold Date.Valid; infer_instance

/-- The source's `current_date += timedelta(days=1)`: the next calendar
day, rolling over month and year boundaries. -/
def Date.nextDay (d : Date) : Date :=
  if d.day < daysInMonth d.year d.month then ⟨d.year, d.month, d.day + 1⟩
  else if d.month < 12 then ⟨d.year, d.month + 1, 1⟩
  else ⟨d.year + 1, 1, 1⟩

/-- Advancing a date by `n` calendar days. -/
def addDays (d : Date) (n : Nat) : Date := Date.nextDay^[n] d

/-- Append `x` to `acc` unless it is already present: the
`if x not in acc: acc.append(x)` idiom used for `investment_dates`. -/
def dedupAppend {α : Type _} [DecidableEq α] (acc : List α) (x : α) : List α :=
  if x ∈ acc then acc else acc ++ [x]

/-- Keep only the first occurrence of every element, preserving order. -/
def dedupKeepFirst {α : Type _} [DecidableEq α] (l : List α) : List α :=
  l.foldl dedupAppend []

/-- The source's shared treatment of one resolution attempt:
`if actual_date is not None: if actual_date not in acc: acc.append(...)`. -/
def optDedupStep {α : Type _} [DecidableEq α] (acc : List α) : Option α → List α
  | some x => dedupAppend acc x
  | none => acc

/-- Model of `get_next_trading_day(target_date, trading_days)`:
`trading_days[trading_days >= target_date]` is the order-preserving
filter of the index, `valid_dates[0]` its first element, and the
`.empty` test yields `None` (here `none`) when the filter is empty. -/
def get_next_trading_day (target : Date) (tradingDays : List Date) : Option Date :=
  (tradingDays.filter (fun d => decide (rataDie target ≤ rataDie d))).head?

/-- The `(year, month)` group keys of
`df.groupby([df.index.year, df.index.month])`.  `groupby` enumerates the
distinct keys in sorted order; for the ascending index the source is
specified to receive, that is exactly the first-occurrence order of the
mapped list. -/
def monthsOf (tdays : List Date) : List (Nat × Nat) :=
  dedupKeepFirst (tdays.map (fun d => (d.year, d.month)))

/-- The monthly target-date construction: `pd.Timestamp(year, month,
day_of_month)` raises `ValueError` exactly when `day_of_month` is not a
day of that month, and the except-branch then snaps to
`calendar.monthrange(year, month)[1]`, the month's last calendar day. -/
def monthlyTarget (y m dayOfMonth : Nat) : Date :=
  if 1 ≤ dayOfMonth ∧ dayOfMonth ≤ daysInMonth y m then ⟨y, m, dayOfMonth⟩
  else ⟨y, m, daysInMonth y m⟩

/-- The monthly branch of the investment-date loop: for each `(year,
month)` group in order, build the target, roll it forward with
`get_next_trading_day`, and append the result if it resolved and is not
already in the list. -/
def monthlyInvestmentDates (tdays : List Date) (dayOfMonth : Nat) : List Date :=
  (monthsOf tdays).foldl (fun acc ym =>
    optDedupStep acc (get_next_trading_day (monthlyTarget ym.1 ym.2 dayOfMonth) tdays)) []

/-- The weekly branch's `while current_date <= end_date` loop.  The
source loop terminates because the date advances one day per iteration;
here that is expressed with a fuel argument, and the fuel actually
supplied (`rataDie last + 1 - rataDie first`) is proved sufficient for
valid dates, so the guarded recursion below computes exactly the
source's walk. -/
def weeklyLoop (tdays : List Date) (tgt : Nat) (last : Date) :
    Nat → Date → List Date → List Date
  | 0, _, acc => acc
  | fuel + 1, cur, acc =>
    if rataDie cur ≤ rataDie last then
      weeklyLoop tdays tgt last fuel cur.nextDay
        (if weekday cur = tgt then
          optDedupStep acc (get_next_trading_day cur tdays)
        else acc)
    else acc

/-- The sequence of calendar days visited by a guarded one-day-at-a-time
walk from `cur` while `cur <= last`, with the same fuel discipline as
`weeklyLoop`. -/
def calendarWalk : Nat → Date → Date → List Date
  | 0, _, _ => []
  | fuel + 1, cur, last =>
    if rataDie cur ≤ rataDie last then cur :: calendarWalk fuel cur.nextDay last
    else []

/-- Every calendar day from `first` to `last` inclusive, described
directly as `first + i` for `i < span`. -/
def calendarDays (first last : Date) : List Date :=
  (List.range (rataDie last + 1 - rataDie first)).map (addDays first)

/-- The weekly branch on a nonempty index: `current_date = df.index[0]`,
`end_date = df.index[-1]`, then the calendar-day walk. -/
def weeklyInvestmentDatesNE (t : Date) (rest : List Date) (tgt : Nat) : List Date :=
  let last := (t :: rest).getLast (List.cons_ne_nil t rest)
  weeklyLoop (t :: rest) tgt last (rataDie last + 1 - rataDie t) t []

/-- The schedule parameter pair `(freq_type, freq_val)`: the monthly
branch reads `int(freq_val)`, the weekly branch a weekday name. -/
inductive FreqSpec where
  | monthly (dayOfMonth : Nat)
  | weekly (weekdayName : String)
deriving DecidableEq, Repr

/-- Message standing for the `ValueError` that `time.strptime` raises on
an unrecognized weekday name. -/
def weekdayFormatError : String := "ValueError: unrecognized weekday name"

/-- Message standing for the `IndexError` that `df.index[0]` raises on
an empty index. -/
def emptyIndexError : String := "IndexError: index 0 is out of bounds"

/-- Investment-date resolution for either schedule kind, with the two
exceptions the source can raise in this phase made explicit.  The order
matches the source: `strptime` runs before `df.index[0]` is read. -/
def investmentDatesOf (tdays : List Date) (freq : FreqSpec) :
    Except String (List Date) :=
  match freq with
  | .monthly dayOfMonth => .ok (monthlyInvestmentDates tdays dayOfMonth)
  | .weekly name =>
    match parseWeekday name with
    | none => .error weekdayFormatError
    | some tgt =>
      match tdays with
      | [] => .error emptyIndexError
      | t :: rest => .ok (weeklyInvestmentDatesNE t rest tgt)

/-- One row of the input price series.  The spec's `PriceSeries` carries
one real closing price per trading day, so the source's
`df[['Close']].dropna()` is the identity on it and closes are total
rationals here. -/
structure PriceRow where
  date : Date
  close : ℚ
deriving DecidableEq, Repr

/-- One row of the output frame, with all columns `calculate_sip` adds. -/
structure AccRow where
  date : Date
  close : ℚ
  investedToday : ℚ
  sharesBoughtToday : ℚ
  totalInvested : ℚ
  totalShares : ℚ
  portfolioValue : ℚ
  profit : ℚ
  profitPct : ℚ
deriving DecidableEq, Repr

/-- The application loop plus the vectorized column computations, fused
into one left-to-right pass.  Per row, `Invested_Today` receives
`amount` once per occurrence of the row's date in `investment_dates`
(the `+=` in the apply loop), hence `amount * count`; likewise
`Shares_Bought_Today` receives `amount / close` per occurrence.
`Total_Invested` and `Total_Shares` are the running `cumsum` values.
`Profit_Pct` is `(Profit / Total_Invested) * 100` followed by
`fillna(0)`: the `NaN` being filled arises exactly from `0 / 0`, i.e.
when both `Total_Invested` and `Profit` are zero (a nonzero profit with
zero invested, which would give IEEE infinity instead, is impossible:
zero invested forces zero shares and hence zero profit). -/
def accumulate (amount : ℚ) (idates : List Date) :
    ℚ → ℚ → List PriceRow → List AccRow
  | _, _, [] => []
  | ti, ts, r :: rest =>
    let c : ℚ := (idates.count r.date : ℚ)
    let inv := amount * c
    let sh := amount / r.close * c
    let ti' := ti + inv
    let ts' := ts + sh
    let pv := ts' * r.close
    let pf := pv - ti'
    { date := r.date, close := r.close, investedToday := inv,
      sharesBoughtToday := sh, totalInvested := ti', totalShares := ts',
      portfolioValue := pv, profit := pf,
      profitPct := if ti' = 0 ∧ pf = 0 then 0 else pf / ti' * 100 } ::
      accumulate amount idates ti' ts' rest

/-- Model of `calculate_sip(df, amount, freq_type, freq_val)`.  The
errors the investment-date phase can raise propagate; otherwise the
accumulated frame is produced. -/
def calculate_sip (rows : List PriceRow) (amount : ℚ) (freq : FreqSpec) :
    Except String (List AccRow) :=
  match investmentDatesOf (rows.map PriceRow.date) freq with
  | .error e => .error e
  | .ok idates => .ok (accumulate amount idates 0 0 rows)

/-- Whether a run of the engine returned normally (no exception). -/
def sipSucceeds (rows : List PriceRow) (amount : ℚ) (freq : FreqSpec) : Bool :=
  match calculate_sip rows amount freq with
  | .ok _ => true
  | .error _ => false

/-- Small concrete trading calendar: Mon 2024-01-01 and Wed 2024-01-03
(Tuesday missing), used to witness the theorems below. -/
def tdaysA : List Date := [⟨2024, 1, 1⟩, ⟨2024, 1, 3⟩]

/-- Concrete calendar in which a late-April monthly target rolls forward
into May while May has its own resolved date. -/
def tdaysB : List Date := [⟨2021, 4, 15⟩, ⟨2021, 5, 3⟩, ⟨2021, 5, 31⟩]

/-- Concrete price series over `tdaysA`. -/
def rowsA : List PriceRow := [⟨⟨2024, 1, 1⟩, 10⟩, ⟨⟨2024, 1, 3⟩, 20⟩]

/-- Concrete price series with trading days 2021-01-05 and 2021-02-01. -/
def rowsB : List PriceRow := [⟨⟨2021, 1, 5⟩, 10⟩, ⟨⟨2021, 2, 1⟩, 20⟩]

/-! ### Calendar arithmetic -/

theorem daysInMonth_pos (y m : Nat) : 1 ≤ daysInMonth y m := by
  unfold daysInMonth; split <;> split <;> omega

theorem daysInMonth_le_31 (y m : Nat) : daysInMonth y m ≤ 31 := by
  unfold daysInMonth; split <;> split <;> omega

theorem daysBeforeMonth_succ (y m : Nat) (h : 1 ≤ m) :
    daysBeforeMonth y (m + 1) = daysBeforeMonth y m + daysInMonth y m := by
  obtain ⟨k, rfl⟩ : ∃ k, m = k + 1 := ⟨m - 1, by omega⟩
  unfold daysBeforeMonth
  have h1 : k + 1 + 1 - 1 = k + 1 := by omega
  have h2 : k + 1 - 1 = k := by omega
  rw [h1, h2, Finset.sum_range_succ]

theorem daysBeforeMonth_one (y : Nat) : daysBeforeMonth y 1 = 0 := by
  unfold daysBeforeMonth
  simp

theorem daysBeforeMonth_twelve (y : Nat) :
    daysBeforeMonth y 12 = if isLeapYear y then 335 else 334 := by
  unfold daysBeforeMonth daysInMonth
  cases h : isLeapYear y <;> simp [Finset.sum_range_succ, h]

theorem daysInMonth_twelve (y : Nat) : daysInMonth y 12 = 31 := by
  unfold daysInMonth; norm_num

set_option maxHeartbeats 1000000 in
theorem rataDie_nextDay (d : Date) (h : d.Valid) :
    rataDie d.nextDay = rataDie d + 1 := by
  obtain ⟨hy, hm1, hm2, hd1, hd2⟩ := h
  unfold Date.nextDay
  split
  · unfold rataDie
    dsimp only
    omega
  · split
    · rename_i hlt hm12
      have hday : d.day = daysInMonth d.year d.month := by omega
      unfold rataDie
      dsimp only
      rw [daysBeforeMonth_succ d.year d.month hm1]
      omega
    · rename_i hlt hm12
      have hm : d.month = 12 := by omega
      have hdim : daysInMonth d.year d.month = 31 := by rw [hm]; exact daysInMonth_twelve _
      have hday : d.day = 31 := by omega
      unfold rataDie
      dsimp only
      rw [daysBeforeMonth_one, hm, daysBeforeMonth_twelve]
      have hy1 : d.year + 1 - 1 = d.year := by omega
      rw [hy1]
      have hleap : isLeapYear d.year = true ↔
          ((d.year % 4 = 0 ∧ d.year % 100 ≠ 0) ∨ d.year % 400 = 0) := by
        simp [isLeapYear]
      by_cases hL : isLeapYear d.year = true
      · rw [if_pos hL]
        rw [hleap] at hL
        omega
      · rw [if_neg hL]
        rw [hleap] at hL
        push_neg at hL
        omega

theorem nextDay_valid (d : Date) (h : d.Valid) : d.nextDay.Valid := by
  obtain ⟨hy, hm1, hm2, hd1, hd2⟩ := h
  unfold Date.nextDay
  split
  · rename_i hlt
    exact ⟨hy, hm1, hm2, by dsimp only; omega, by dsimp only; omega⟩
  · split
    · rename_i hlt hm12
      exact ⟨hy, by dsimp only; omega, by dsimp only; omega, le_refl 1,
        daysInMonth_pos _ _⟩
    · exact ⟨by dsimp only; omega, le_refl 1, by dsimp only; omega, le_refl 1,
        daysInMonth_pos _ _⟩

theorem addDays_zero (d : Date) : addDays d 0 = d := rfl

theorem addDays_succ (d : Date) (n : Nat) :
    addDays d (n + 1) = addDays d.nextDay n := by
  unfold addDays
  exact Function.iterate_succ_apply Date.nextDay n d

theorem addDays_valid (d : Date) (h : d.Valid) (n : Nat) : (addDays d n).Valid := by
  induction n generalizing d with
  | zero => exact h
  | succ n ih => rw [addDays_succ]; exact ih d.nextDay (nextDay_valid d h)

theorem rataDie_addDays (d : Date) (h : d.Valid) (n : Nat) :
    rataDie (addDays d n) = rataDie d + n := by
  induction n generalizing d with
  | zero => rfl
  | succ n ih =>
    rw [addDays_succ, ih d.nextDay (nextDay_valid d h), rataDie_nextDay d h]
    omega

/-! ### Deduplicating append -/

theorem mem_foldl_dedupAppend {α : Type _} [DecidableEq α] (l : List α) :
    ∀ (acc : List α) (x : α), x ∈ l.foldl dedupAppend acc ↔ x ∈ acc ∨ x ∈ l := by
  induction l with
  | nil => simp
  | cons a as ih =>
    intro acc x
    rw [List.foldl_cons, ih]
    unfold dedupAppend
    by_cases h : a ∈ acc
    · rw [if_pos h]
      constructor
      · rintro (hx | hx)
        · exact Or.inl hx
        · exact Or.inr (List.mem_cons_of_mem a hx)
      · rintro (hx | hx)
        · exact Or.inl hx
        · rcases List.mem_cons.mp hx with rfl | hx
          · exact Or.inl h
          · exact Or.inr hx
    · rw [if_neg h]
      simp only [List.mem_append, List.mem_singleton, List.mem_cons]
      tauto

theorem nodup_foldl_dedupAppend {α : Type _} [DecidableEq α] (l : List α) :
    ∀ acc : List α, acc.Nodup → (l.foldl dedupAppend acc).Nodup := by
  induction l with
  | nil => exact fun acc h => h
  | cons a as ih =>
    intro acc h
    rw [List.foldl_cons]
    refine ih _ ?h
    unfold dedupAppend
    split
    · exact h
    · rename_i hna
      simp [List.nodup_append, h, hna]

theorem length_foldl_dedupAppend {α : Type _} [DecidableEq α] (l : List α) :
    ∀ acc : List α, (l.foldl dedupAppend acc).length ≤ acc.length + l.length := by
  induction l with
  | nil => simp
  | cons a as ih =>
    intro acc
    rw [List.foldl_cons]
    refine le_trans (ih (dedupAppend acc a)) ?h
    unfold dedupAppend
    split
    · simp only [List.length_cons]
      omega
    · simp only [List.length_append, List.length_cons, List.length_nil]
      omega

theorem mem_dedupKeepFirst {α : Type _} [DecidableEq α] (l : List α) (x : α) :
    x ∈ dedupKeepFirst l ↔ x ∈ l := by
  unfold dedupKeepFirst
  rw [mem_foldl_dedupAppend]
  simp

theorem nodup_dedupKeepFirst {α : Type _} [DecidableEq α] (l : List α) :
    (dedupKeepFirst l).Nodup :=
  nodup_foldl_dedupAppend l [] List.nodup_nil

theorem length_dedupKeepFirst {α : Type _} [DecidableEq α] (l : List α) :
    (dedupKeepFirst l).length ≤ l.length := by
  have h := length_foldl_dedupAppend l []
  simpa using h

/-- A fold that optionally resolves each element and dedup-appends the
results is the plain dedup-append fold over the resolved sublist. -/
theorem foldl_optStep {α β : Type _} [DecidableEq β] (f : α → Option β) (l : List α) :
    ∀ acc : List β,
      l.foldl (fun acc x => optDedupStep acc (f x)) acc
      = (l.filterMap f).foldl dedupAppend acc := by
  induction l with
  | nil => intro acc; rfl
  | cons a as ih =>
    intro acc
    rw [List.foldl_cons, List.filterMap_cons]
    cases hf : f a with
    | none => exact ih acc
    | some b =>
      rw [List.foldl_cons]
      exact ih (dedupAppend acc b)

/-! ### The roll-forward primitive -/

theorem get_next_trading_day_mem {target d : Date} {tdays : List Date}
    (h : get_next_trading_day target tdays = some d) :
    d ∈ tdays ∧ rataDie target ≤ rataDie d := by
  unfold get_next_trading_day at h
  have hd : d ∈ tdays.filter (fun e => decide (rataDie target ≤ rataDie e)) := by
    cases hfl : tdays.filter (fun e => decide (rataDie target ≤ rataDie e)) with
    | nil => rw [hfl] at h; simp at h
    | cons x xs =>
      rw [hfl] at h
      simp only [List.head?_cons, Option.some_inj] at h
      rw [← h]
      exact List.mem_cons_self x xs
  have := List.mem_filter.mp hd
  exact ⟨this.1, of_decide_eq_true this.2⟩

theorem get_next_trading_day_min {target d : Date} {tdays : List Date}
    (hsort : tdays.Pairwise (fun a b => rataDie a < rataDie b))
    (h : get_next_trading_day target tdays = some d) :
    ∀ e ∈ tdays, rataDie target ≤ rataDie e → rataDie d ≤ rataDie e := by
  intro e he hte
  unfold get_next_trading_day at h
  have hef : e ∈ tdays.filter (fun x => decide (rataDie target ≤ rataDie x)) :=
    List.mem_filter.mpr ⟨he, decide_eq_true hte⟩
  have hpair := hsort.filter (fun x => decide (rataDie target ≤ rataDie x))
  cases hfl : tdays.filter (fun x => decide (rataDie target ≤ rataDie x)) with
  | nil => rw [hfl] at hef; simp at hef
  | cons x xs =>
    rw [hfl] at h hef hpair
    simp only [List.head?_cons, Option.some_inj] at h
    rcases List.mem_cons.mp hef with rfl | hexs
    · rw [← h]
    · rw [← h]
      exact le_of_lt ((List.pairwise_cons.mp hpair).1 e hexs)

theorem get_next_trading_day_self {target : Date} {tdays : List Date}
    (hsort : tdays.Pairwise (fun a b => rataDie a < rataDie b))
    (h : target ∈ tdays) :
    get_next_trading_day target tdays = some target := by
  unfold get_next_trading_day
  induction tdays with
  | nil => simp at h
  | cons x xs ih =>
    rcases List.mem_cons.mp h with rfl | hx
    · simp [List.filter_cons]
    · have hlt : rataDie x < rataDie target :=
        (List.pairwise_cons.mp hsort).1 target hx
      rw [List.filter_cons]
      rw [if_neg (by simp; omega)]
      exact ih (List.pairwise_cons.mp hsort).2 hx

theorem get_next_trading_day_none {target : Date} {tdays : List Date} :
    get_next_trading_day target tdays = none ↔
      ∀ e ∈ tdays, rataDie e < rataDie target := by
  unfold get_next_trading_day
  rw [List.head?_eq_none_iff, List.filter_eq_nil_iff]
  simp

/-! ### Characterizing the two schedule-resolution loops -/

theorem monthlyInvestmentDates_eq (tdays : List Date) (dayOfMonth : Nat) :
    monthlyInvestmentDates tdays dayOfMonth
      = dedupKeepFirst ((monthsOf tdays).filterMap
          (fun ym => get_next_trading_day (monthlyTarget ym.1 ym.2 dayOfMonth) tdays)) := by
  unfold monthlyInvestmentDates dedupKeepFirst
  exact foldl_optStep _ (monthsOf tdays) []

theorem mem_monthsOf (tdays : List Date) (ym : Nat × Nat) :
    ym ∈ monthsOf tdays ↔ ∃ d ∈ tdays, d.year = ym.1 ∧ d.month = ym.2 := by
  rcases ym with ⟨y, m⟩
  unfold monthsOf
  rw [mem_dedupKeepFirst, List.mem_map]
  constructor
  · rintro ⟨d, hd, hdm⟩
    rw [Prod.mk.injEq] at hdm
    exact ⟨d, hd, hdm.1, hdm.2⟩
  · rintro ⟨d, hd, h1, h2⟩
    exact ⟨d, hd, by rw [h1, h2]⟩

theorem weeklyLoop_eq (tdays : List Date) (tgt : Nat) (last : Date) (fuel : Nat) :
    ∀ (cur : Date) (acc : List Date),
      weeklyLoop tdays tgt last fuel cur acc
        = (((calendarWalk fuel cur last).filter
              (fun d => decide (weekday d = tgt))).filterMap
            (fun d => get_next_trading_day d tdays)).foldl dedupAppend acc := by
  induction fuel with
  | zero => intro cur acc; rfl
  | succ fuel ih =>
    intro cur acc
    unfold weeklyLoop calendarWalk
    split
    · rw [ih]
      by_cases hw : weekday cur = tgt
      · rw [if_pos hw, List.filter_cons, if_pos (decide_eq_true hw)]
        rw [List.filterMap_cons]
        cases hg : get_next_trading_day cur tdays <;>
          simp only [hg, optDedupStep, List.foldl_cons]
      · rw [if_neg hw, List.filter_cons,
          if_neg (by simpa using hw)]
    · rfl

set_option maxHeartbeats 1000000 in
theorem calendarWalk_eq (fuel : Nat) (last : Date) :
    ∀ cur : Date, cur.Valid → rataDie last + 1 - rataDie cur ≤ fuel →
      calendarWalk fuel cur last
        = (List.range (rataDie last + 1 - rataDie cur)).map (addDays cur) := by
  induction fuel with
  | zero =>
    intro cur hv hfuel
    have h0 : rataDie last + 1 - rataDie cur = 0 := by omega
    rw [h0]
    rfl
  | succ fuel ih =>
    intro cur hv hfuel
    unfold calendarWalk
    split
    · rename_i hle
      have hstep := rataDie_nextDay cur hv
      have hih := ih cur.nextDay (nextDay_valid cur hv) (by omega)
      have hspan : rataDie last + 1 - rataDie cur
          = (rataDie last + 1 - rataDie cur.nextDay) + 1 := by omega
      have hmap : (List.range (rataDie last + 1 - rataDie cur.nextDay)).map
            (addDays cur ∘ Nat.succ)
          = (List.range (rataDie last + 1 - rataDie cur.nextDay)).map
            (addDays cur.nextDay) :=
        List.map_congr_left fun i _ => addDays_succ cur i
      rw [hspan, List.range_succ_eq_map, List.map_cons, List.map_map, hmap, ← hih]
      rfl
    · rename_i hgt
      have h0 : rataDie last + 1 - rataDie cur = 0 := by omega
      rw [h0]
      rfl

/-! ### The accumulator -/

theorem accumulate_nil (amount : ℚ) (idates : List Date) (ti ts : ℚ) :
    accumulate amount idates ti ts [] = [] := rfl

theorem accumulate_map_date (amount : ℚ) (idates : List Date) :
    ∀ (rows : List PriceRow) (ti ts : ℚ),
      (accumulate amount idates ti ts rows).map AccRow.date
        = rows.map PriceRow.date := by
  intro rows
  induction rows with
  | nil => intro ti ts; rfl
  | cons r rest ih =>
    intro ti ts
    unfold accumulate
    rw [List.map_cons, List.map_cons, ih]

/-- The pointwise column definitions, read off one output row. -/
theorem accumulate_row_fields (amount : ℚ) (idates : List Date) :
    ∀ (rows : List PriceRow) (ti ts : ℚ), ∀ row ∈ accumulate amount idates ti ts rows,
      row.portfolioValue = row.totalShares * row.close
      ∧ row.profit = row.portfolioValue - row.totalInvested
      ∧ row.investedToday = amount * (idates.count row.date : ℚ)
      ∧ row.sharesBoughtToday = amount / row.close * (idates.count row.date : ℚ)
      ∧ (row.totalInvested ≠ 0 →
          row.profitPct = row.profit / row.totalInvested * 100) := by
  intro rows
  induction rows with
  | nil => intro ti ts row h; simp [accumulate] at h
  | cons r rest ih =>
    intro ti ts row h
    unfold accumulate at h
    rcases List.mem_cons.mp h with rfl | htail
    · refine ⟨rfl, rfl, rfl, rfl, ?hpct⟩
      intro hne
      dsimp only
      rw [if_neg]
      rintro ⟨h0, _⟩
      exact hne h0
    · exact ih _ _ row htail

/-- Zero invested-so-far forces zero shares, zero profit and a zero
(`fillna`-ed) profit percentage: the invariant that makes `fillna(0)`
produce 0 exactly on the rows the spec describes. -/
theorem accumulate_ti_zero (amount : ℚ) (idates : List Date) :
    ∀ (rows : List PriceRow) (ti ts : ℚ) (K : ℕ),
      ti = amount * (K : ℚ) → (ti = 0 → ts = 0) →
      ∀ row ∈ accumulate amount idates ti ts rows,
        (row.totalInvested = 0 →
          row.totalShares = 0 ∧ row.profit = 0 ∧ row.profitPct = 0) := by
  intro rows
  induction rows with
  | nil => intro ti ts K hK hz row h; simp [accumulate] at h
  | cons r rest ih =>
    intro ti ts K hK hz row h
    unfold accumulate at h
    set c : ℚ := (idates.count r.date : ℚ) with hc
    have hK' : ti + amount * c = amount * ((K + idates.count r.date : ℕ) : ℚ) := by
      push_cast
      rw [hK]
      ring
    have hz' : ti + amount * c = 0 → ts + amount / r.close * c = 0 := by
      intro h0
      rcases mul_eq_zero.mp (hK' ▸ h0) with ha | hKc
      · have hts : ts = 0 := hz (by rw [hK, ha, zero_mul])
        rw [hts, ha, zero_div, zero_mul, add_zero]
      · have : K + idates.count r.date = 0 := by exact_mod_cast hKc
        have hcount : idates.count r.date = 0 := by omega
        have hK0 : K = 0 := by omega
        have hts : ts = 0 := hz (by rw [hK, hK0]; simp)
        rw [hts, hc, hcount]
        simp
    rcases List.mem_cons.mp h with rfl | htail
    · intro h0
      dsimp only at h0 ⊢
      have hts' : ts + amount / r.close * c = 0 := hz' h0
      have hpf : (ts + amount / r.close * c) * r.close - (ti + amount * c) = 0 := by
        rw [hts', h0, zero_mul, sub_zero]
      refine ⟨hts', hpf, ?hpct⟩
      rw [if_pos ⟨h0, hpf⟩]
    · exact ih (ti + amount * c) (ts + amount / r.close * c)
        (K + idates.count r.date) hK' hz' row htail

/-- Running totals never drop below the totals carried into the pass. -/
theorem accumulate_lower_bound (amount : ℚ) (idates : List Date)
    (hamt : 0 ≤ amount) :
    ∀ (rows : List PriceRow), (∀ r ∈ rows, 0 < r.close) →
      ∀ (ti ts : ℚ), ∀ row ∈ accumulate amount idates ti ts rows,
        ti ≤ row.totalInvested ∧ ts ≤ row.totalShares := by
  intro rows
  induction rows with
  | nil => intro hcl ti ts row h; simp [accumulate] at h
  | cons r rest ih =>
    intro hcl ti ts row h
    have hc0 : (0 : ℚ) ≤ (idates.count r.date : ℚ) := by positivity
    have hinv : 0 ≤ amount * (idates.count r.date : ℚ) := mul_nonneg hamt hc0
    have hsh : 0 ≤ amount / r.close * (idates.count r.date : ℚ) :=
      mul_nonneg (div_nonneg hamt (le_of_lt (hcl r (List.mem_cons_self r rest)))) hc0
    unfold accumulate at h
    rcases List.mem_cons.mp h with rfl | htail
    · constructor
      · dsimp only
        linarith
      · dsimp only
        linarith
    · have hrest := ih (fun e he => hcl e (List.mem_cons_of_mem r he)) _ _ row htail
      exact ⟨le_trans (by linarith) hrest.1, le_trans (by linarith) hrest.2⟩

/-- The running totals are monotonically non-decreasing along the output. -/
theorem accumulate_pairwise (amount : ℚ) (idates : List Date)
    (hamt : 0 ≤ amount) :
    ∀ (rows : List PriceRow), (∀ r ∈ rows, 0 < r.close) →
      ∀ (ti ts : ℚ),
        (accumulate amount idates ti ts rows).Pairwise
          (fun a b => a.totalInvested ≤ b.totalInvested
            ∧ a.totalShares ≤ b.totalShares) := by
  intro rows
  induction rows with
  | nil => intro hcl ti ts; simp [accumulate]
  | cons r rest ih =>
    intro hcl ti ts
    unfold accumulate
    rw [List.pairwise_cons]
    constructor
    · intro b hb
      exact accumulate_lower_bound amount idates hamt rest
        (fun e he => hcl e (List.mem_cons_of_mem r he)) _ _ b hb
    · exact ih (fun e he => hcl e (List.mem_cons_of_mem r he)) _ _

/-- `Invested_Today` on each output row is the contribution amount times
the number of occurrences of the row's date in the investment-date list. -/
theorem accumulate_investedToday (amount : ℚ) (idates : List Date)
    (rows : List PriceRow) (ti ts : ℚ) (row : AccRow)
    (h : row ∈ accumulate amount idates ti ts rows) :
    row.investedToday = amount * (idates.count row.date : ℚ) :=
  (accumulate_row_fields amount idates rows ti ts row h).2.2.1

/-! ### Invariants of the resolved investment dates -/

theorem weeklyInvestmentDatesNE_eq (t : Date) (rest : List Date) (tgt : Nat) :
    weeklyInvestmentDatesNE t rest tgt
      = (((calendarWalk (rataDie ((t :: rest).getLast (List.cons_ne_nil t rest)) + 1
              - rataDie t) t ((t :: rest).getLast (List.cons_ne_nil t rest))).filter
            (fun d => decide (weekday d = tgt))).filterMap
          (fun d => get_next_trading_day d (t :: rest))).foldl dedupAppend [] := by
  unfold weeklyInvestmentDatesNE
  exact weeklyLoop_eq (t :: rest) tgt _ _ t []

theorem investmentDatesOf_mem (tdays : List Date) (freq : FreqSpec)
    (idates : List Date) (h : investmentDatesOf tdays freq = .ok idates) :
    ∀ d ∈ idates, d ∈ tdays := by
  intro d hd
  cases freq with
  | monthly dayOfMonth =>
    simp only [investmentDatesOf] at h
    have hid : idates = monthlyInvestmentDates tdays dayOfMonth := by
      simp only [Except.ok.injEq] at h
      exact h.symm
    rw [hid, monthlyInvestmentDates_eq, mem_dedupKeepFirst] at hd
    obtain ⟨ym, _, hym⟩ := List.mem_filterMap.mp hd
    exact (get_next_trading_day_mem hym).1
  | weekly name =>
    simp only [investmentDatesOf] at h
    cases hp : parseWeekday name with
    | none => rw [hp] at h; exact absurd h (by simp)
    | some tgt =>
      rw [hp] at h
      cases tdays with
      | nil => exact absurd h (by simp)
      | cons t rest =>
        have hid : idates = weeklyInvestmentDatesNE t rest tgt := by
          simp only [Except.ok.injEq] at h
          exact h.symm
        rw [hid, weeklyInvestmentDatesNE_eq, mem_foldl_dedupAppend] at hd
        rcases hd with hd | hd
        · simp at hd
        · obtain ⟨e, _, he⟩ := List.mem_filterMap.mp hd
          exact (get_next_trading_day_mem he).1

theorem investmentDatesOf_nodup (tdays : List Date) (freq : FreqSpec)
    (idates : List Date) (h : investmentDatesOf tdays freq = .ok idates) :
    idates.Nodup := by
  cases freq with
  | monthly dayOfMonth =>
    simp only [investmentDatesOf] at h
    have hid : idates = monthlyInvestmentDates tdays dayOfMonth := by
      simp only [Except.ok.injEq] at h
      exact h.symm
    rw [hid, monthlyInvestmentDates_eq]
    exact nodup_dedupKeepFirst _
  | weekly name =>
    simp only [investmentDatesOf] at h
    cases hp : parseWeekday name with
    | none => rw [hp] at h; exact absurd h (by simp)
    | some tgt =>
      rw [hp] at h
      cases tdays with
      | nil => exact absurd h (by simp)
      | cons t rest =>
        have hid : idates = weeklyInvestmentDatesNE t rest tgt := by
          simp only [Except.ok.injEq] at h
          exact h.symm
        rw [hid, weeklyInvestmentDatesNE_eq]
        exact nodup_foldl_dedupAppend _ [] List.nodup_nil

theorem monthlyInvestmentDates_length (tdays : List Date) (dayOfMonth : Nat) :
    (monthlyInvestmentDates tdays dayOfMonth).length ≤ (monthsOf tdays).length := by
  rw [monthlyInvestmentDates_eq]
  exact le_trans (length_dedupKeepFirst _) (List.length_filterMap_le _ _)

/-! ### Claim theorems -/

/-- C7: the roll-forward primitive, applied to a target date and the
ascending list of trading days, returns the earliest trading day on or
after the target; a target that is itself a trading day is returned
unchanged, and when no trading day is on or after the target it returns
no date at all. -/
theorem roll_forward_spec (target : Date) (tdays : List Date)
    (hsort : tdays.Pairwise (fun a b => rataDie a < rataDie b)) :
    (∀ d, get_next_trading_day target tdays = some d →
        d ∈ tdays ∧ rataDie target ≤ rataDie d
          ∧ ∀ e ∈ tdays, rataDie target ≤ rataDie e → rataDie d ≤ rataDie e)
    ∧ (target ∈ tdays → get_next_trading_day target tdays = some target)
    ∧ (get_next_trading_day target tdays = none ↔
        ∀ e ∈ tdays, rataDie e < rataDie target) := by
  refine ⟨?p1, ?p2, ?p3⟩
  · intro d hd
    exact ⟨(get_next_trading_day_mem hd).1, (get_next_trading_day_mem hd).2,
      get_next_trading_day_min hsort hd⟩
  · exact get_next_trading_day_self hsort
  · exact get_next_trading_day_none

/-- Witness for C7 on the concrete calendar `tdaysA` with target
2024-01-02 (a non-trading Tuesday). -/
theorem roll_forward_spec_witness :
    tdaysA.Pairwise (fun a b => rataDie a < rataDie b)
    ∧ ((∀ d, get_next_trading_day ⟨2024, 1, 2⟩ tdaysA = some d →
          d ∈ tdaysA ∧ rataDie ⟨2024, 1, 2⟩ ≤ rataDie d
            ∧ ∀ e ∈ tdaysA, rataDie ⟨2024, 1, 2⟩ ≤ rataDie e → rataDie d ≤ rataDie e)
      ∧ ((⟨2024, 1, 2⟩ : Date) ∈ tdaysA →
          get_next_trading_day ⟨2024, 1, 2⟩ tdaysA = some ⟨2024, 1, 2⟩)
      ∧ (get_next_trading_day ⟨2024, 1, 2⟩ tdaysA = none ↔
          ∀ e ∈ tdaysA, rataDie e < rataDie ⟨2024, 1, 2⟩)) :=
  ⟨by decide, roll_forward_spec ⟨2024, 1, 2⟩ tdaysA (by decide)⟩

/-- C1: for a Monthly schedule with a validated dayOfMonth over an
ascending calendar, the resolved list is exactly the dedup-kept fold of
roll-forwards of the per-month targets, one candidate per calendar month
represented in the series; months whose target resolves to no trading
day contribute nothing (dropped by `filterMap`), and the target is
year/month/dayOfMonth when that day exists in the month and the month's
last calendar day otherwise. -/
theorem monthly_schedule_resolution (tdays : List Date) (dayOfMonth : Nat)
    (hday : 1 ≤ dayOfMonth ∧ dayOfMonth ≤ 31)
    (_hsort : tdays.Pairwise (fun a b => rataDie a < rataDie b)) :
    investmentDatesOf tdays (.monthly dayOfMonth)
        = .ok (dedupKeepFirst ((monthsOf tdays).filterMap
            (fun ym => get_next_trading_day (monthlyTarget ym.1 ym.2 dayOfMonth) tdays)))
    ∧ (∀ ym, ym ∈ monthsOf tdays ↔ ∃ d ∈ tdays, d.year = ym.1 ∧ d.month = ym.2)
    ∧ (∀ y m, dayOfMonth ≤ daysInMonth y m →
        monthlyTarget y m dayOfMonth = ⟨y, m, dayOfMonth⟩)
    ∧ (∀ y m, daysInMonth y m < dayOfMonth →
        monthlyTarget y m dayOfMonth = ⟨y, m, daysInMonth y m⟩) := by
  refine ⟨?e, mem_monthsOf tdays, ?t1, ?t2⟩
  · simp only [investmentDatesOf, monthlyInvestmentDates_eq]
  · intro y m hle
    unfold monthlyTarget
    rw [if_pos ⟨hday.1, hle⟩]
  · intro y m hgt
    unfold monthlyTarget
    rw [if_neg]
    rintro ⟨h1, hc⟩
    omega

/-- Witness for C1 on `tdaysB` with dayOfMonth 31 (April snaps to the
30th and rolls into May). -/
theorem monthly_schedule_resolution_witness :
    ((1 ≤ 31 ∧ 31 ≤ 31)
      ∧ tdaysB.Pairwise (fun a b => rataDie a < rataDie b))
    ∧ (investmentDatesOf tdaysB (.monthly 31)
          = .ok (dedupKeepFirst ((monthsOf tdaysB).filterMap
              (fun ym => get_next_trading_day (monthlyTarget ym.1 ym.2 31) tdaysB)))
      ∧ (∀ ym, ym ∈ monthsOf tdaysB ↔ ∃ d ∈ tdaysB, d.year = ym.1 ∧ d.month = ym.2)
      ∧ (∀ y m, 31 ≤ daysInMonth y m → monthlyTarget y m 31 = ⟨y, m, 31⟩)
      ∧ (∀ y m, daysInMonth y m < 31 →
          monthlyTarget y m 31 = ⟨y, m, daysInMonth y m⟩)) :=
  ⟨⟨by decide, by decide⟩,
    monthly_schedule_resolution tdaysB 31 (by decide) (by decide)⟩

/-- C4 counterexample: with the validated dayOfMonth 31 on the calendar
`tdaysB`, the resolver produces the two distinct investment dates
2021-05-03 (April's target rolled across the month boundary) and
2021-05-31, which lie in the same calendar month, so the at most one
InvestmentDate per calendar month part of the claim fails. -/
theorem monthly_two_dates_one_month :
    monthlyInvestmentDates tdaysB 31 = [⟨2021, 5, 3⟩, ⟨2021, 5, 31⟩]
    ∧ ¬ (∀ d1 ∈ monthlyInvestmentDates tdaysB 31,
          ∀ d2 ∈ monthlyInvestmentDates tdaysB 31,
            d1.year = d2.year → d1.month = d2.month → d1 = d2) := by
  constructor
  · decide
  · decide

/-- C4 amended: every resolved InvestmentDate is a date of the price
series and the list has no duplicates; for Monthly schedules each
represented calendar month contributes at most one date (the list is no
longer than the month list), but a target that rolls across a month
boundary can place two distinct InvestmentDates in one calendar month. -/
theorem investment_dates_invariants (tdays : List Date) (freq : FreqSpec)
    (idates : List Date) (h : investmentDatesOf tdays freq = .ok idates) :
    (∀ d ∈ idates, d ∈ tdays) ∧ idates.Nodup
    ∧ (∀ dayOfMonth, freq = .monthly dayOfMonth →
        idates.length ≤ (monthsOf tdays).length) := by
  refine ⟨investmentDatesOf_mem tdays freq idates h,
    investmentDatesOf_nodup tdays freq idates h, ?len⟩
  intro dayOfMonth hfreq
  subst hfreq
  have hid : idates = monthlyInvestmentDates tdays dayOfMonth := by
    simp only [investmentDatesOf, Except.ok.injEq] at h
    exact h.symm
  rw [hid]
  exact monthlyInvestmentDates_length tdays dayOfMonth

/-- Witness for the amended C4 on `tdaysB` with dayOfMonth 31. -/
theorem investment_dates_invariants_witness :
    investmentDatesOf tdaysB (.monthly 31)
        = .ok (monthlyInvestmentDates tdaysB 31)
    ∧ ((∀ d ∈ monthlyInvestmentDates tdaysB 31, d ∈ tdaysB)
      ∧ (monthlyInvestmentDates tdaysB 31).Nodup
      ∧ (∀ dayOfMonth, FreqSpec.monthly 31 = .monthly dayOfMonth →
          (monthlyInvestmentDates tdaysB 31).length ≤ (monthsOf tdaysB).length)) :=
  ⟨rfl, investment_dates_invariants tdaysB (.monthly 31)
    (monthlyInvestmentDates tdaysB 31) rfl⟩

/-- Inversion helper: a successful engine run determines the resolved
investment dates and the accumulated output. -/
theorem calculate_sip_ok_elim (rows : List PriceRow) (amount : ℚ)
    (freq : FreqSpec) (out : List AccRow)
    (h : calculate_sip rows amount freq = .ok out) :
    ∃ idates, investmentDatesOf (rows.map PriceRow.date) freq = .ok idates
      ∧ out = accumulate amount idates 0 0 rows := by
  unfold calculate_sip at h
  cases hi : investmentDatesOf (rows.map PriceRow.date) freq with
  | error e =>
    rw [hi] at h
    exact absurd h (by simp)
  | ok idates =>
    rw [hi] at h
    refine ⟨idates, rfl, ?out⟩
    simp only [Except.ok.injEq] at h
    exact h.symm

/-- C2: for a Weekly schedule with a recognized weekday over a nonempty
series of valid dates, the resolved list is exactly the dedup-kept
sequence of roll-forward results of the weekday-matching days of the
calendar-day walk from the first to the last trading day inclusive; the
walk visits every calendar day of that span once, in order. -/
theorem weekly_schedule_resolution (first : Date) (rest : List Date)
    (name : String) (tgt : Nat) (last : Date)
    (hparse : parseWeekday name = some tgt)
    (hlast : (first :: rest).getLast (List.cons_ne_nil first rest) = last)
    (hv : ∀ d ∈ first :: rest, d.Valid) :
    investmentDatesOf (first :: rest) (.weekly name)
        = .ok (dedupKeepFirst (((calendarDays first last).filter
            (fun d => decide (weekday d = tgt))).filterMap
            (fun d => get_next_trading_day d (first :: rest))))
    ∧ (calendarDays first last).map rataDie
        = List.range' (rataDie first) (rataDie last + 1 - rataDie first) := by
  have hvfirst : first.Valid := hv first (List.mem_cons_self first rest)
  constructor
  · simp only [investmentDatesOf, hparse]
    rw [weeklyInvestmentDatesNE_eq, hlast]
    rw [calendarWalk_eq (rataDie last + 1 - rataDie first) last first hvfirst
      (le_refl (rataDie last + 1 - rataDie first))]
    rfl
  · unfold calendarDays
    rw [List.map_map, List.range'_eq_map_range]
    exact List.map_congr_left fun i hi => rataDie_addDays first hvfirst i

/-- Witness for C2 on the two-day series `tdaysA` with a Monday
schedule: Monday 2024-01-01 resolves to itself. -/
theorem weekly_schedule_resolution_witness :
    (parseWeekday "Monday" = some 0
      ∧ ∀ d ∈ ([⟨2024, 1, 1⟩, ⟨2024, 1, 3⟩] : List Date), d.Valid)
    ∧ (investmentDatesOf [⟨2024, 1, 1⟩, ⟨2024, 1, 3⟩] (.weekly "Monday")
          = .ok (dedupKeepFirst
              (((calendarDays ⟨2024, 1, 1⟩ ⟨2024, 1, 3⟩).filter
                  (fun d => decide (weekday d = 0))).filterMap
                (fun d => get_next_trading_day d [⟨2024, 1, 1⟩, ⟨2024, 1, 3⟩])))
      ∧ (calendarDays ⟨2024, 1, 1⟩ ⟨2024, 1, 3⟩).map rataDie
          = List.range' (rataDie ⟨2024, 1, 1⟩)
              (rataDie ⟨2024, 1, 3⟩ + 1 - rataDie ⟨2024, 1, 1⟩)) :=
  ⟨⟨rfl, by decide⟩,
    weekly_schedule_resolution ⟨2024, 1, 1⟩ [⟨2024, 1, 3⟩] "Monday" 0
      ⟨2024, 1, 3⟩ rfl rfl (by decide)⟩

/-- C3: on every output row, portfolio value is shares times close,
profit is portfolio value minus total invested, profit percentage is
100 times profit over total invested on rows with nonzero total
invested, and rows with zero total invested report a profit percentage
of exactly 0 (the `fillna(0)` of the 0/0 `NaN`). -/
theorem derived_metrics_pointwise (rows : List PriceRow) (amount : ℚ)
    (freq : FreqSpec) (out : List AccRow)
    (h : calculate_sip rows amount freq = .ok out) :
    ∀ row ∈ out,
      row.portfolioValue = row.totalShares * row.close
      ∧ row.profit = row.portfolioValue - row.totalInvested
      ∧ (row.totalInvested ≠ 0 →
          row.profitPct = row.profit / row.totalInvested * 100)
      ∧ (row.totalInvested = 0 → row.profitPct = 0) := by
  obtain ⟨idates, hi, rfl⟩ := calculate_sip_ok_elim rows amount freq out h
  intro row hrow
  have hf := accumulate_row_fields amount idates rows 0 0 row hrow
  have hz := accumulate_ti_zero amount idates rows 0 0 0 (by simp)
    (fun _ => rfl) row hrow
  exact ⟨hf.1, hf.2.1, hf.2.2.2.2, fun h0 => (hz h0).2.2⟩

/-- Witness for C3 on the series `rowsA` with a monthly day-1 schedule. -/
theorem derived_metrics_pointwise_witness :
    calculate_sip rowsA 100 (.monthly 1)
        = .ok (accumulate 100 [⟨2024, 1, 1⟩] 0 0 rowsA)
    ∧ ∀ row ∈ accumulate 100 [⟨2024, 1, 1⟩] 0 0 rowsA,
        row.portfolioValue = row.totalShares * row.close
        ∧ row.profit = row.portfolioValue - row.totalInvested
        ∧ (row.totalInvested ≠ 0 →
            row.profitPct = row.profit / row.totalInvested * 100)
        ∧ (row.totalInvested = 0 → row.profitPct = 0) :=
  ⟨rfl, derived_metrics_pointwise rowsA 100 (.monthly 1) _ rfl⟩

/-- C5 counterexample: on an empty price series with a monthly schedule
the engine returns a zero-length series as a success value instead of
failing with an empty-data error. -/
theorem empty_input_monthly_success :
    calculate_sip [] 100 (.monthly 1) = .ok ([] : List AccRow) := rfl

/-- C5 amended: `calculate_sip` itself performs no empty-data check: on
zero rows a monthly schedule succeeds with a zero-length series, and a
weekly schedule fails only with the index error from reading the first
trading day, not with an explicit empty-data condition.  (The explicit
empty-data `ValueError` is raised by the caller before the engine runs.) -/
theorem empty_input_behavior (amount : ℚ) (dayOfMonth : Nat) :
    calculate_sip [] amount (.monthly dayOfMonth) = .ok ([] : List AccRow)
    ∧ calculate_sip [] amount (.weekly "Monday") = .error emptyIndexError := by
  exact ⟨rfl, rfl⟩

/-- C6 counterexample: the engine accepts the out-of-range dayOfMonth 40
(no error; the `ValueError` from `pd.Timestamp` is swallowed and the
target silently snapped to the month's last day, yielding the investment
date 2021-02-01), and it also accepts a negative contribution amount. -/
theorem invalid_config_accepted :
    monthlyInvestmentDates (rowsB.map PriceRow.date) 40 = [⟨2021, 2, 1⟩]
    ∧ sipSucceeds rowsB 100 (.monthly 40) = true
    ∧ sipSucceeds rowsB (-100) (.monthly 1) = true := by
  exact ⟨by decide, rfl, rfl⟩

/-- C6 amended: the engine does not reject configuration errors.  An
out-of-range dayOfMonth (0 or above 31) is silently converted to the
month's last calendar day by the exception handler; a monthly run
therefore always returns normally, for any dayOfMonth and any
contribution amount, positive or not.  Only an unrecognized weekday name
raises an error (the `strptime` `ValueError`, during resolution).
Range validation of dayOfMonth and weekday happens upstream, in the
prompt loop of `main`, before the engine is called. -/
theorem config_validation_behavior :
    (∀ y m dayOfMonth, dayOfMonth = 0 ∨ 31 < dayOfMonth →
        monthlyTarget y m dayOfMonth = ⟨y, m, daysInMonth y m⟩)
    ∧ (∀ (rows : List PriceRow) (amount : ℚ) (name : String),
        parseWeekday name = none →
          calculate_sip rows amount (.weekly name) = .error weekdayFormatError)
    ∧ (∀ (rows : List PriceRow) (amount : ℚ) (dayOfMonth : Nat),
        sipSucceeds rows amount (.monthly dayOfMonth) = true) := by
  refine ⟨?snap, ?badname, ?alwaysOk⟩
  · intro y m d hd
    have h31 := daysInMonth_le_31 y m
    unfold monthlyTarget
    rw [if_neg]
    rintro ⟨h1, h2⟩
    omega
  · intro rows amount name hp
    simp only [calculate_sip, investmentDatesOf, hp]
  · intro rows amount d
    rfl

/-- Witness for the amended C6: dayOfMonth 40 snaps to February's last
day, the weekday name Funday raises the format error, and a run with
dayOfMonth 0 and a negative amount still succeeds. -/
theorem config_validation_behavior_witness :
    ((40 = 0 ∨ 31 < 40) ∧ parseWeekday "Funday" = none)
    ∧ (monthlyTarget 2021 2 40 = ⟨2021, 2, daysInMonth 2021 2⟩
      ∧ calculate_sip rowsB 5 (.weekly "Funday") = .error weekdayFormatError
      ∧ sipSucceeds rowsB (-3) (.monthly 0) = true) :=
  ⟨⟨by decide, rfl⟩,
    config_validation_behavior.1 2021 2 40 (by decide),
    config_validation_behavior.2.1 rowsB 5 "Funday" rfl,
    config_validation_behavior.2.2 rowsB (-3) 0⟩

/-- C8: with a positive contribution amount and positive closing prices,
the running totals `Total_Invested` and `Total_Shares` are monotonically
non-decreasing along the output series. -/
theorem totals_monotone (rows : List PriceRow) (amount : ℚ) (freq : FreqSpec)
    (out : List AccRow) (hamt : 0 < amount) (hcl : ∀ r ∈ rows, 0 < r.close)
    (h : calculate_sip rows amount freq = .ok out) :
    out.Pairwise (fun a b => a.totalInvested ≤ b.totalInvested
      ∧ a.totalShares ≤ b.totalShares) := by
  obtain ⟨idates, hi, rfl⟩ := calculate_sip_ok_elim rows amount freq out h
  exact accumulate_pairwise amount idates (le_of_lt hamt) rows hcl 0 0

/-- Witness for C8 on `rowsA` with a monthly day-1 schedule. -/
theorem totals_monotone_witness :
    ((0 : ℚ) < 100 ∧ ∀ r ∈ rowsA, 0 < r.close)
    ∧ (accumulate 100 [⟨2024, 1, 1⟩] 0 0 rowsA).Pairwise
        (fun a b => a.totalInvested ≤ b.totalInvested
          ∧ a.totalShares ≤ b.totalShares) :=
  ⟨⟨by norm_num, by intro r hr; fin_cases hr <;> norm_num⟩,
    totals_monotone rowsA 100 (.monthly 1) _ (by norm_num)
      (by intro r hr; fin_cases hr <;> norm_num) rfl⟩

/-- C9: the output series carries exactly the dates of the input price
series, one row per input row, in the same order. -/
theorem output_aligned_with_input (rows : List PriceRow) (amount : ℚ)
    (freq : FreqSpec) (out : List AccRow)
    (h : calculate_sip rows amount freq = .ok out) :
    out.map AccRow.date = rows.map PriceRow.date := by
  obtain ⟨idates, hi, rfl⟩ := calculate_sip_ok_elim rows amount freq out h
  exact accumulate_map_date amount idates rows 0 0

/-- Witness for C9 on `rowsA` with a monthly day-1 schedule. -/
theorem output_aligned_with_input_witness :
    calculate_sip rowsA 100 (.monthly 1)
        = .ok (accumulate 100 [⟨2024, 1, 1⟩] 0 0 rowsA)
    ∧ (accumulate 100 [⟨2024, 1, 1⟩] 0 0 rowsA).map AccRow.date
        = rowsA.map PriceRow.date :=
  ⟨rfl, output_aligned_with_input rowsA 100 (.monthly 1) _ rfl⟩

/-- C10: on every output row of a successful run, `Invested_Today` is
either 0 or exactly the contribution amount, never a larger multiple:
the resolved investment dates are deduplicated before the application
loop, so each date receives at most one contribution. -/
theorem invested_today_zero_or_amount (rows : List PriceRow) (amount : ℚ)
    (freq : FreqSpec) (out : List AccRow)
    (h : calculate_sip rows amount freq = .ok out) :
    ∀ row ∈ out, row.investedToday = 0 ∨ row.investedToday = amount := by
  obtain ⟨idates, hi, rfl⟩ := calculate_sip_ok_elim rows amount freq out h
  intro row hrow
  have hnd := investmentDatesOf_nodup (rows.map PriceRow.date) freq idates hi
  have hcount : idates.count row.date ≤ 1 :=
    List.nodup_iff_count_le_one.mp hnd row.date
  have hinv := accumulate_investedToday amount idates rows 0 0 row hrow
  rcases Nat.le_one_iff_eq_zero_or_eq_one.mp hcount with h0 | h1
  · left
    rw [hinv, h0]
    simp
  · right
    rw [hinv, h1]
    simp

/-- Witness for C10 on `rowsA` with a monthly day-1 schedule. -/
theorem invested_today_zero_or_amount_witness :
    calculate_sip rowsA 100 (.monthly 1)
        = .ok (accumulate 100 [⟨2024, 1, 1⟩] 0 0 rowsA)
    ∧ ∀ row ∈ accumulate 100 [⟨2024, 1, 1⟩] 0 0 rowsA,
        row.investedToday = 0 ∨ row.investedToday = 100 :=
  ⟨rfl, invested_today_zero_or_amount rowsA 100 (.monthly 1) _ rfl⟩

end TimeInMarketSim
